import Mathlib

/-!
# Verification of the MCEq transport core (`MCEq/core.py`)

A shallow embedding of the matrix-assembly, alias-routing, solution-retrieval
and integration-path machinery of `MCEq.core.MCEqRun`, together with theorems
checking the specified properties against the embedded code.

Conventions of the embedding:

* numpy arrays of floats are modelled as functions into `ℚ` (vectors as
  `Nat → ℚ`, matrices as `Nat → Nat → ℚ`) or as `List ℚ` where the code
  grows them step by step; exact rational arithmetic stands in for floats;
* Python strings are modelled as `List Char`;
* Python dictionaries are modelled as functions into `Option` values built
  by successive pointwise updates, in the order the code performs them;
* the unbounded `while` loop of `_calculate_integration_path` and of
  `_odepack` are modelled with an explicit fuel argument plus a `done` flag
  recording whether the loop exited through its own condition.
-/

namespace MCEq

/-! ## Matrix assembly (`_init_default_matrices`)

`self.int_m = (-self.I + self.C) * self.Lambda_int` where `self.I` is
`np.eye(dim_states)`, `self.C` a dense square matrix, and `self.Lambda_int`
a vector; numpy's `*` broadcasts the vector over the columns.
-/

/-- `np.eye`: identity matrix entries. -/
def eyeM : Nat → Nat → ℚ := fun i j => if i = j then 1 else 0

/-- numpy broadcast product `A * v` of an `(n, n)` matrix with an `(n,)`
vector: each entry of row `i` is multiplied by the matching entry of `v`. -/
def elemMulVec (A : Nat → Nat → ℚ) (v : Nat → ℚ) : Nat → Nat → ℚ :=
  fun i j => A i j * v j

/-- `self.int_m = (-self.I + self.C) * self.Lambda_int` from
`_init_default_matrices`. -/
def int_m (C : Nat → Nat → ℚ) (Lambda_int : Nat → ℚ) : Nat → Nat → ℚ :=
  elemMulVec (fun i j => -eyeM i j + C i j) Lambda_int

/-- `self.dec_m = (-self.I + self.D) * self.Lambda_dec` from
`_init_default_matrices`. -/
def dec_m (D : Nat → Nat → ℚ) (Lambda_dec : Nat → ℚ) : Nat → Nat → ℚ :=
  elemMulVec (fun i j => -eyeM i j + D i j) Lambda_dec

/-- Ordinary matrix product truncated to dimension `n`. -/
def matMulN (n : Nat) (A B : Nat → Nat → ℚ) : Nat → Nat → ℚ :=
  fun i j => ∑ k ∈ Finset.range n, A i k * B k j

/-- Diagonal matrix with vector `v` on the diagonal. -/
def diagM (v : Nat → ℚ) : Nat → Nat → ℚ :=
  fun i j => if i = j then v j else 0

/-- C1: after matrix assembly, `int_m[i,j] = (C[i,j] - δᵢⱼ) * Λ_int[j]` and
`dec_m[i,j] = (D[i,j] - δᵢⱼ) * Λ_dec[j]`; equivalently, within the matrix
dimension both operators are `(-Identity + C)` resp. `(-Identity + D)`
right-multiplied by the diagonal matrix of the corresponding per-bin
inverse lengths. -/
theorem init_default_matrices_spec (n : Nat) (C D : Nat → Nat → ℚ)
    (Li Ld : Nat → ℚ) (i j : Nat) (hj : j < n) :
    int_m C Li i j = (C i j - (if i = j then 1 else 0)) * Li j ∧
    dec_m D Ld i j = (D i j - (if i = j then 1 else 0)) * Ld j ∧
    int_m C Li i j = matMulN n (fun a b => -eyeM a b + C a b) (diagM Li) i j ∧
    dec_m D Ld i j = matMulN n (fun a b => -eyeM a b + D a b) (diagM Ld) i j := by
  have key : ∀ (M : Nat → Nat → ℚ) (v : Nat → ℚ),
      elemMulVec (fun a b => -eyeM a b + M a b) v i j
        = (M i j - (if i = j then 1 else 0)) * v j := by
    intro M v
    simp only [elemMulVec, eyeM]
    split <;> ring
  have prod : ∀ (M : Nat → Nat → ℚ) (v : Nat → ℚ),
      matMulN n (fun a b => -eyeM a b + M a b) (diagM v) i j
        = elemMulVec (fun a b => -eyeM a b + M a b) v i j := by
    intro M v
    simp only [matMulN, diagM, elemMulVec]
    have : ∀ k ∈ Finset.range n,
        (-eyeM i k + M i k) * (if k = j then v j else 0)
          = if k = j then (-eyeM i j + M i j) * v j else 0 := by
      intro k _
      by_cases hkj : k = j
      · subst hkj; simp
      · simp [hkj]
    rw [Finset.sum_congr rfl this, Finset.sum_ite_eq' (Finset.range n) j
      (fun _ => (-eyeM i j + M i j) * v j)]
    simp [Finset.mem_range.mpr hj]
  refine ⟨key C Li, key D Ld, ?_, ?_⟩
  · rw [int_m, prod C Li]
  · rw [dec_m, prod D Ld]

/-- Witness for C1 at `n = 2`, `i = 0`, `j = 1`, with concrete matrices. -/
theorem init_default_matrices_spec_witness :
    int_m (fun a b => (a + 2 * b : ℚ)) (fun b => (b + 3 : ℚ)) 0 1 = 8 := by
  have h := (init_default_matrices_spec 2 (fun a b => (a + 2 * b : ℚ))
    (fun a b => (a + 2 * b : ℚ)) (fun b => (b + 3 : ℚ)) (fun b => (b + 3 : ℚ))
    0 1 (by norm_num)).1
  norm_num at h
  exact h

end MCEq

/-! ## Alias and observer lookups (`_alias`, `_alternate_score`)

Both take the absolute values of mother and daughter PDG id, look the pair
up in the corresponding table, and on a hit return the state-vector index
range of the species whose id is the daughter's sign times the table value.
-/

/-- State-vector index range of a species (`lidx()`/`uidx()`). -/
structure PRange where
  lidx : Nat
  uidx : Nat
deriving DecidableEq

namespace MCEq

/-- `MCEqRun._alias`: look up `(|mother|, |daughter|)` in `alias_table` and
return the index range of the species `sign(daughter) * alias_id`. -/
def _alias (alias_table : ℤ × ℤ → Option ℤ) (ref : ℤ → PRange)
    (mother daughter : ℤ) : Option (Nat × Nat) :=
  match alias_table (|mother|, |daughter|) with
  | some a => some ((ref (Int.sign daughter * a)).lidx,
                    (ref (Int.sign daughter * a)).uidx)
  | none => none

/-- `MCEqRun._alternate_score`: identical lookup against `obs_table`. -/
def _alternate_score (obs_table : ℤ × ℤ → Option ℤ) (ref : ℤ → PRange)
    (mother daughter : ℤ) : Option (Nat × Nat) :=
  match obs_table (|mother|, |daughter|) with
  | some a => some ((ref (Int.sign daughter * a)).lidx,
                    (ref (Int.sign daughter * a)).uidx)
  | none => none

/-- C10: alias and observer lookup are charge-conjugation symmetric: both
depend only on the absolute values of the identifiers for membership,
`_alias (m, d) = _alias (-m, d)` (and likewise for `_alternate_score`),
membership is decided by the table entry at the absolute values, and for a
negative daughter the returned range is that of the negated alias id. -/
theorem alias_charge_conjugation (alias_table obs_table : ℤ × ℤ → Option ℤ)
    (ref : ℤ → PRange) (m d : ℤ) :
    (_alias alias_table ref m d = _alias alias_table ref (-m) d) ∧
    (_alternate_score obs_table ref m d = _alternate_score obs_table ref (-m) d) ∧
    ((_alias alias_table ref m d).isSome = (alias_table (|m|, |d|)).isSome) ∧
    (d < 0 → _alias alias_table ref m d
      = (alias_table (|m|, |d|)).map
          (fun a => ((ref (-a)).lidx, (ref (-a)).uidx))) ∧
    (d < 0 → _alternate_score obs_table ref m d
      = (obs_table (|m|, |d|)).map
          (fun a => ((ref (-a)).lidx, (ref (-a)).uidx))) := by
  refine ⟨?_, ?_, ?_, ?_, ?_⟩
  · simp [_alias, abs_neg]
  · simp [_alternate_score, abs_neg]
  · cases h : alias_table (|m|, |d|) <;> simp [_alias, h]
  · intro hd
    cases h : alias_table (|m|, |d|) <;>
      simp [_alias, h, Int.sign_eq_neg_one_of_neg hd]
  · intro hd
    cases h : obs_table (|m|, |d|) <;>
      simp [_alternate_score, h, Int.sign_eq_neg_one_of_neg hd]

/-- Witness for C10: the pion alias entry `(211, 14) ↦ 7114` applied to the
antineutrino daughter `-14` yields the range of species `-7114`. -/
theorem alias_charge_conjugation_witness :
    _alias (fun p => if p = (211, 14) then some 7114 else none)
      (fun i => ⟨i.toNat, i.toNat + 1⟩) 211 (-14) = some (0, 1) := by
  have h := (alias_charge_conjugation
    (fun p => if p = (211, 14) then some 7114 else none)
    (fun p => if p = (211, 14) then some 7114 else none)
    (fun i => ⟨i.toNat, i.toNat + 1⟩) 211 (-14)).2.2.2.1 (by norm_num)
  rw [h]
  norm_num

end MCEq

namespace MCEq

/-! ## Per-daughter accumulation in `_follow_chains`

For each direct daughter `d` of mother `p`, `_follow_chains` builds the
dense block `dprop.dot(pprod_mat)` and adds it into `propmat`: into the
alias row range when `_alias(p, d)` hits, otherwise into `d`'s natural row
range, and additionally into the observer row range when
`_alternate_score(p, d)` hits; the column range is always that of the
original mother `p_orig`.
-/

/-- In-place block accumulation
`m[rl:ru, cl:cu] += blk` on the function model of a matrix. -/
def addBlock (m : Nat → Nat → ℚ) (rl ru cl cu : Nat)
    (blk : Nat → Nat → ℚ) : Nat → Nat → ℚ :=
  fun i j =>
    if rl ≤ i ∧ i < ru ∧ cl ≤ j ∧ j < cu then m i j + blk (i - rl) (j - cl)
    else m i j

/-- The `_follow_chains` loop body for one daughter: accumulate
`dprop.dot(pprod_mat)` into `propmat` routed to the alias range when
present (else the daughter's natural range `[dl, du)`), and additionally
into the observer range when present; columns are the mother block
`[pl, pu)`. -/
def accumulate_daughter (n : Nat) (propmat dprop pprod_mat : Nat → Nat → ℚ)
    (al alt : Option (Nat × Nat)) (dl du pl pu : Nat) : Nat → Nat → ℚ :=
  let blk := matMulN n dprop pprod_mat
  let m1 := match al with
    | none => addBlock propmat dl du pl pu blk
    | some r => addBlock propmat r.1 r.2 pl pu blk
  match alt with
  | none => m1
  | some r => addBlock m1 r.1 r.2 pl pu blk

/-- C3: the dense block `dprop.dot(pprod_mat)` is accumulated exactly once
into the destination rows — the alias range when the pair is aliased,
otherwise the daughter's natural range — and additionally once into the
observer rows when the pair is observed; in particular, when an alias is
present and disjoint from the daughter's natural range (and any observer
range is disjoint from it too), every entry in the natural range is left
untouched. -/
theorem follow_chains_routing (n : Nat)
    (propmat dprop pprod_mat : Nat → Nat → ℚ)
    (al alt : Option (Nat × Nat)) (dl du pl pu : Nat) :
    (∀ i j, accumulate_daughter n propmat dprop pprod_mat al alt dl du pl pu i j
      = propmat i j
        + (if (al.getD (dl, du)).1 ≤ i ∧ i < (al.getD (dl, du)).2
              ∧ pl ≤ j ∧ j < pu
           then matMulN n dprop pprod_mat (i - (al.getD (dl, du)).1) (j - pl)
           else 0)
        + (match alt with
           | none => 0
           | some r => if r.1 ≤ i ∧ i < r.2 ∧ pl ≤ j ∧ j < pu
                       then matMulN n dprop pprod_mat (i - r.1) (j - pl)
                       else 0)) ∧
    (∀ a b, al = some (a, b) → (b ≤ dl ∨ du ≤ a) →
      (∀ o1 o2, alt = some (o1, o2) → (o2 ≤ dl ∨ du ≤ o1)) →
      ∀ i j, dl ≤ i → i < du →
        accumulate_daughter n propmat dprop pprod_mat al alt dl du pl pu i j
          = propmat i j) := by
  have main : ∀ i j,
      accumulate_daughter n propmat dprop pprod_mat al alt dl du pl pu i j
        = propmat i j
          + (if (al.getD (dl, du)).1 ≤ i ∧ i < (al.getD (dl, du)).2
                ∧ pl ≤ j ∧ j < pu
             then matMulN n dprop pprod_mat (i - (al.getD (dl, du)).1) (j - pl)
             else 0)
          + (match alt with
             | none => 0
             | some r => if r.1 ≤ i ∧ i < r.2 ∧ pl ≤ j ∧ j < pu
                         then matMulN n dprop pprod_mat (i - r.1) (j - pl)
                         else 0) := by
    intro i j
    cases al <;> cases alt <;>
      simp only [accumulate_daughter, addBlock, Option.getD] <;>
      split_ifs <;> simp
  refine ⟨main, ?_⟩
  intro a b hal hdisj hodisj i j hdl hdu
  rw [main i j]
  subst hal
  have h1 : ¬(a ≤ i ∧ i < b ∧ pl ≤ j ∧ j < pu) := by
    rcases hdisj with h | h
    · intro hc; omega
    · intro hc; omega
  cases halt : alt with
  | none => simp [h1]
  | some r =>
      have h2 : ¬(r.1 ≤ i ∧ i < r.2 ∧ pl ≤ j ∧ j < pu) := by
        rcases hodisj r.1 r.2 (by rw [halt]) with h | h
        · intro hc; omega
        · intro hc; omega
      simp [h1, h2]

/-- Witness for C3: with an alias range `[2, 3)` disjoint from the natural
range `[0, 1)` and no observer entry, the natural-range entry `(0, 0)` of
`propmat` is unchanged. -/
theorem follow_chains_routing_witness :
    accumulate_daughter 1 (fun _ _ => (5 : ℚ)) (fun _ _ => 1) (fun _ _ => 1)
      (some (2, 3)) none 0 1 0 1 0 0 = 5 := by
  exact (follow_chains_routing 1 (fun _ _ => (5 : ℚ)) (fun _ _ => 1)
    (fun _ _ => 1) (some (2, 3)) none 0 1 0 1).2 2 3 rfl (Or.inr (by norm_num))
    (by intro o1 o2 h; cases h) 0 0 (le_refl 0) (by norm_num)

/-! ## Solution retrieval (`get_solution`)

`get_solution` selects the final solution vector or a snapshot, then either
slices out one species block (row `ref[name].lidx():ref[name].uidx()`),
or, for the prefixes `total_` / `conv_`, sums the blocks of the prefixed
lepton categories; every block is multiplied elementwise by
`e_grid ** mag`.  Strings are modelled as `List Char`; a vector is modelled
by its entry at energy index `k` (entry `k` of the numpy slice
`sol[lidx:uidx]` is `sol[lidx + k]`).
-/

/-- Python `str.startswith` on the char-list model of strings. -/
def startsWithL (s p : List Char) : Bool := decide (s.take p.length = p)

/-- Python `str.split(sep)` for a single-character separator. -/
def splitOnC (c : Char) : List Char → List (List Char)
  | [] => [[]]
  | x :: xs =>
    match splitOnC c xs with
    | [] => [[]]
    | h :: t => if x = c then [] :: h :: t else (x :: h) :: t

/-- `MCEqRun.get_solution`, entry at energy index `k`.  `sol` is the stored
final solution when `grid_idx` is absent, else the snapshot
`grid_sol[grid_idx]`; the `total` branch sums the `pr_`/`pi_`/`k_`/bare
blocks, the `conv` branch the `pi_`/`k_`/bare blocks, and the default
branch slices the named block; `split('_')[1]` is the lepton name. -/
def selectSol (solution : Nat → ℚ) (grid_sol : Nat → Nat → ℚ) :
    Option Nat → Nat → ℚ
  | none => solution
  | some gi => grid_sol gi

def get_solution (ref : List Char → PRange) (solution : Nat → ℚ)
    (grid_sol : Nat → Nat → ℚ) (e_grid : Nat → ℚ)
    (particle_name : List Char) (mag : ℤ) (grid_idx : Option Nat)
    (k : Nat) : ℚ :=
  let sol : Nat → ℚ := selectSol solution grid_sol grid_idx
  if startsWithL particle_name "total".data then
    let lep_str := (splitOnC '_' particle_name).getD 1 []
    (["pr_".data, "pi_".data, "k_".data, ([] : List Char)].map
      (fun p => sol ((ref (p ++ lep_str)).lidx + k) * e_grid k ^ mag)).sum
  else if startsWithL particle_name "conv".data then
    let lep_str := (splitOnC '_' particle_name).getD 1 []
    (["pi_".data, "k_".data, ([] : List Char)].map
      (fun p => sol ((ref (p ++ lep_str)).lidx + k) * e_grid k ^ mag)).sum
  else
    sol ((ref particle_name).lidx + k) * e_grid k ^ mag

theorem splitOnC_ne_nil (c : Char) (l : List Char) : splitOnC c l ≠ [] := by
  cases l with
  | nil => simp [splitOnC]
  | cons x xs =>
      cases h : splitOnC c xs with
      | nil => simp [splitOnC, h]
      | cons a t => simp only [splitOnC, h]; split <;> simp

theorem splitOnC_total_append (X : List Char) :
    splitOnC '_' ("total_".data ++ X) = "total".data :: splitOnC '_' X := by
  obtain ⟨h, t, e⟩ := List.exists_cons_of_ne_nil (splitOnC_ne_nil '_' X)
  have hd : "total_".data = ['t', 'o', 't', 'a', 'l', '_'] := rfl
  rw [hd]
  simp [splitOnC, e]

theorem startsWithL_total_append (X : List Char) :
    startsWithL ("total_".data ++ X) "total".data = true := by
  have hd : "total_".data = ['t', 'o', 't', 'a', 'l', '_'] := rfl
  rw [hd]
  simp [startsWithL, List.take]

theorem startsWithL_short_total (c1 c2 c3 : Char) (h : c1 ≠ 't')
    (h' : c1 ≠ 'c') (X : List Char) :
    startsWithL ((c1 :: c2 :: [c3]) ++ X) "total".data = false ∧
    startsWithL ((c1 :: [c2]) ++ X) "total".data = false ∧
    startsWithL ((c1 :: c2 :: [c3]) ++ X) "conv".data = false ∧
    startsWithL ((c1 :: [c2]) ++ X) "conv".data = false := by
  refine ⟨?_, ?_, ?_, ?_⟩ <;>
    · simp only [startsWithL, List.cons_append, List.take, decide_eq_false_iff_not]
      intro hc
      cases X <;> simp_all [List.take]

/-- C4: for any lepton name `X` (one with no underscore of its own and not
itself starting with `total`/`conv`), any `mag`, and any selected solution
vector (the final one, or a snapshot when `grid_idx` is given),
`get_solution` on `total_X` equals the elementwise sum of the results for
`pr_X`, `pi_X`, `k_X` and bare `X`, each of which is the corresponding
species block of the selected solution multiplied elementwise by
`e_grid ** mag`. -/
theorem get_solution_total_sum (ref : List Char → PRange) (solution : Nat → ℚ)
    (grid_sol : Nat → Nat → ℚ) (e_grid : Nat → ℚ) (X : List Char) (mag : ℤ)
    (grid_idx : Option Nat) (k : Nat)
    (hX : splitOnC '_' X = [X])
    (hXt : startsWithL X "total".data = false)
    (hXc : startsWithL X "conv".data = false) :
    get_solution ref solution grid_sol e_grid ("total_".data ++ X) mag grid_idx k
      = get_solution ref solution grid_sol e_grid ("pr_".data ++ X) mag grid_idx k
      + get_solution ref solution grid_sol e_grid ("pi_".data ++ X) mag grid_idx k
      + get_solution ref solution grid_sol e_grid ("k_".data ++ X) mag grid_idx k
      + get_solution ref solution grid_sol e_grid X mag grid_idx k ∧
    (∀ p, (p = "pr_".data ∨ p = "pi_".data ∨ p = "k_".data ∨ p = []) →
      get_solution ref solution grid_sol e_grid (p ++ X) mag grid_idx k
        = selectSol solution grid_sol grid_idx ((ref (p ++ X)).lidx + k)
            * e_grid k ^ mag) := by
  have base : ∀ name, startsWithL name "total".data = false →
      startsWithL name "conv".data = false →
      get_solution ref solution grid_sol e_grid name mag grid_idx k
        = selectSol solution grid_sol grid_idx ((ref name).lidx + k)
            * e_grid k ^ mag := by
    intro name h1 h2
    simp [get_solution, h1, h2]
  have data_pr : "pr_".data = ['p', 'r', '_'] := rfl
  have data_pi : "pi_".data = ['p', 'i', '_'] := rfl
  have data_k : "k_".data = ['k', '_'] := rfl
  obtain ⟨hprT, -, hprC, -⟩ :=
    startsWithL_short_total 'p' 'r' '_' (by decide) (by decide) X
  obtain ⟨hpiT, -, hpiC, -⟩ :=
    startsWithL_short_total 'p' 'i' '_' (by decide) (by decide) X
  obtain ⟨-, hkT, -, hkC⟩ :=
    startsWithL_short_total 'k' '_' '_' (by decide) (by decide) X
  have hpr := base ("pr_".data ++ X) (by rw [data_pr]; exact hprT)
    (by rw [data_pr]; exact hprC)
  have hpi := base ("pi_".data ++ X) (by rw [data_pi]; exact hpiT)
    (by rw [data_pi]; exact hpiC)
  have hk := base ("k_".data ++ X) (by rw [data_k]; exact hkT)
    (by rw [data_k]; exact hkC)
  have hbare := base X hXt hXc
  constructor
  · rw [hpr, hpi, hk, hbare]
    simp only [get_solution]
    rw [startsWithL_total_append, splitOnC_total_append, hX]
    simp only [if_true, List.getD_cons_succ, List.getD_cons_zero,
      List.map_cons, List.map_nil, List.sum_cons, List.sum_nil,
      List.nil_append, add_zero]
    ring
  · intro p hp
    rcases hp with rfl | rfl | rfl | rfl
    · exact hpr
    · exact hpi
    · exact hk
    · simpa using hbare

/-- Witness for C4 at the lepton name `numu`, `mag = 0`, final solution. -/
theorem get_solution_total_sum_witness :
    get_solution (fun nm => ⟨nm.length, nm.length + 1⟩) (fun i => (i : ℚ))
      (fun _ _ => 0) (fun _ => 1) ("total_".data ++ "numu".data) 0 none 0
      = get_solution (fun nm => ⟨nm.length, nm.length + 1⟩) (fun i => (i : ℚ))
          (fun _ _ => 0) (fun _ => 1) ("pr_".data ++ "numu".data) 0 none 0
      + get_solution (fun nm => ⟨nm.length, nm.length + 1⟩) (fun i => (i : ℚ))
          (fun _ _ => 0) (fun _ => 1) ("pi_".data ++ "numu".data) 0 none 0
      + get_solution (fun nm => ⟨nm.length, nm.length + 1⟩) (fun i => (i : ℚ))
          (fun _ _ => 0) (fun _ => 1) ("k_".data ++ "numu".data) 0 none 0
      + get_solution (fun nm => ⟨nm.length, nm.length + 1⟩) (fun i => (i : ℚ))
          (fun _ _ => 0) (fun _ => 1) "numu".data 0 none 0 := by
  exact (get_solution_total_sum (fun nm => ⟨nm.length, nm.length + 1⟩)
    (fun i => (i : ℚ)) (fun _ _ => 0) (fun _ => 1) "numu".data 0 none 0
    (by decide) (by decide) (by decide)).1


/-! ## Integration path (`_calculate_integration_path`)

The `while X < X_surf` loop computes `dX = 1/(max_ldec * ri(X))`, clips it
to `int_grid[grid_step] - X` when `np.any(int_grid)` is truthy, the grid
is not exhausted and `X + dX >= int_grid[grid_step]` (recording the step
index), appends `(dX, ri(X))` and advances.  The loop is modelled with a
fuel argument; `done` records that the loop exited through its condition.
-/

/-- Atmospheric inputs of the path computation: the surface depth
`X_surf`, the inverse-density function `ri = atm_model.r_X2rho`, and
`max_ldec`. -/
structure AtmParams where
  XSurf : ℚ
  ri : ℚ → ℚ
  maxLdec : ℚ

/-- `np.any(int_grid)` for `int_grid` either `None` or an array: truthy iff
some entry is nonzero. -/
def gridAny : Option (List ℚ) → Bool
  | none => false
  | some l => l.any (fun x => decide (x ≠ 0))

/-- `int_grid[grid_step]` (0 when out of range or absent; the code only
reads it under a bounds guard). -/
def gridAt (g : Option (List ℚ)) (gs : Nat) : ℚ :=
  match g with
  | none => 0
  | some l => l.getD gs 0

/-- `int_grid.size` (0 when absent). -/
def gridSize : Option (List ℚ) → Nat
  | none => 0
  | some l => l.length

/-- The unclipped step `dX = 1. / (max_ldec * ri(X))`. -/
def rawStep (P : AtmParams) (X : ℚ) : ℚ := 1 / (P.maxLdec * P.ri X)

/-- The clipping condition
`np.any(int_grid) and grid_step < int_grid.size and X + dX >= int_grid[grid_step]`. -/
def clipCond (P : AtmParams) (g : Option (List ℚ)) (gs : Nat) (X : ℚ) : Bool :=
  gridAny g && decide (gs < gridSize g) && decide (gridAt g gs ≤ X + rawStep P X)

/-- The step actually taken at depth `X` with `grid_step = gs`. -/
def stepOf (P : AtmParams) (g : Option (List ℚ)) (gs : Nat) (X : ℚ) : ℚ :=
  if clipCond P g gs X then gridAt g gs - X else rawStep P X

/-- Result of the path loop: the `dX_vec` and `rho_inv_vec` arrays, the
snapshot step indices `grid_idcs`, and whether the loop terminated through
its own condition (rather than by fuel exhaustion). -/
structure PathOut where
  dXs : List ℚ
  rhoInvs : List ℚ
  gridIdcs : List Nat
  done : Bool
deriving DecidableEq

/-- The `while X < X_surf` loop of `_calculate_integration_path`, carrying
the current depth `X`, step counter `step` and grid pointer `gs`. -/
def calcPathAux (P : AtmParams) (g : Option (List ℚ)) :
    ℚ → Nat → Nat → Nat → PathOut
  | X, _, _, 0 => ⟨[], [], [], decide (¬X < P.XSurf)⟩
  | X, step, gs, fuel + 1 =>
    if X < P.XSurf then
      let riX := P.ri X
      let c := clipCond P g gs X
      let dX := stepOf P g gs X
      let rest := calcPathAux P g (X + dX) (step + 1)
        (gs + if c then 1 else 0) fuel
      ⟨dX :: rest.dXs, riX :: rest.rhoInvs,
       if c then step :: rest.gridIdcs else rest.gridIdcs, rest.done⟩
    else ⟨[], [], [], true⟩

/-- The whole path computation, started at `X = 0`, `step = 0`,
`grid_step = 0` as in the code. -/
def computePath (P : AtmParams) (g : Option (List ℚ)) (fuel : Nat) : PathOut :=
  calcPathAux P g 0 0 0 fuel

/-- Cumulative depth before step `i` of a computed path (the value of `X`
the loop holds when it computes step `i`). -/
def depthBefore (out : PathOut) (i : Nat) : ℚ := (out.dXs.take i).sum

/-- Value of the grid pointer `grid_step` before step `i`: the number of
snapshot indices recorded at earlier steps. -/
def gridStepBefore (out : PathOut) (i : Nat) : Nat :=
  (out.gridIdcs.filter (fun j => decide (j < i))).length


theorem calcPathAux_len (P : AtmParams) (g : Option (List ℚ)) :
    ∀ (fuel : Nat) (X : ℚ) (step gs : Nat),
      (calcPathAux P g X step gs fuel).rhoInvs.length
        = (calcPathAux P g X step gs fuel).dXs.length := by
  intro fuel
  induction fuel with
  | zero => intro X step gs; simp [calcPathAux]
  | succ n ih =>
      intro X step gs
      by_cases h : X < P.XSurf
      · simp only [calcPathAux, if_pos h, List.length_cons]
        rw [ih]
      · simp [calcPathAux, if_neg h]

theorem calcPathAux_ge (P : AtmParams) (g : Option (List ℚ)) :
    ∀ (fuel : Nat) (X : ℚ) (step gs : Nat),
      ∀ j ∈ (calcPathAux P g X step gs fuel).gridIdcs, step ≤ j := by
  intro fuel
  induction fuel with
  | zero => intro X step gs j hj; simp [calcPathAux] at hj
  | succ n ih =>
      intro X step gs j hj
      by_cases h : X < P.XSurf
      · simp only [calcPathAux, if_pos h] at hj
        by_cases hc : clipCond P g gs X
        · rw [if_pos hc] at hj
          rcases List.mem_cons.mp hj with rfl | hj'
          · exact le_refl j
          · exact Nat.le_of_succ_le (ih _ _ _ j hj')
        · rw [if_neg hc] at hj
          exact Nat.le_of_succ_le (ih _ _ _ j hj)
      · simp [calcPathAux, if_neg h] at hj

theorem calcPathAux_done (P : AtmParams) (g : Option (List ℚ)) :
    ∀ (fuel : Nat) (X : ℚ) (step gs : Nat),
      (calcPathAux P g X step gs fuel).done = true →
        P.XSurf ≤ X + (calcPathAux P g X step gs fuel).dXs.sum := by
  intro fuel
  induction fuel with
  | zero =>
      intro X step gs hd
      simp only [calcPathAux, decide_eq_true_eq] at hd ⊢
      simpa using le_of_not_lt hd
  | succ n ih =>
      intro X step gs hd
      by_cases h : X < P.XSurf
      · simp only [calcPathAux, if_pos h] at hd ⊢
        have := ih (X + stepOf P g gs X) (step + 1)
          (gs + if clipCond P g gs X then 1 else 0) hd
        rw [List.sum_cons, ← add_assoc]
        exact this
      · simp only [calcPathAux, if_neg h, List.sum_nil, add_zero]
        exact le_of_not_lt h


theorem calcPathAux_idx (P : AtmParams) (g : Option (List ℚ)) :
    ∀ (fuel : Nat) (X : ℚ) (step gs : Nat) (i : Nat),
      i < (calcPathAux P g X step gs fuel).dXs.length →
      ((calcPathAux P g X step gs fuel).dXs.getD i 0
        = stepOf P g
            (gs + ((calcPathAux P g X step gs fuel).gridIdcs.filter
              (fun j => decide (j < step + i))).length)
            (X + ((calcPathAux P g X step gs fuel).dXs.take i).sum)) ∧
      ((calcPathAux P g X step gs fuel).rhoInvs.getD i 0
        = P.ri (X + ((calcPathAux P g X step gs fuel).dXs.take i).sum)) ∧
      ((step + i) ∈ (calcPathAux P g X step gs fuel).gridIdcs ↔
        clipCond P g
          (gs + ((calcPathAux P g X step gs fuel).gridIdcs.filter
            (fun j => decide (j < step + i))).length)
          (X + ((calcPathAux P g X step gs fuel).dXs.take i).sum) = true) ∧
      (X + ((calcPathAux P g X step gs fuel).dXs.take i).sum < P.XSurf) := by
  intro fuel
  induction fuel with
  | zero => intro X step gs i hi; simp [calcPathAux] at hi
  | succ n ih =>
      intro X step gs i hi
      by_cases h : X < P.XSurf
      · simp only [calcPathAux, if_pos h] at hi ⊢
        cases i with
        | zero =>
            have hnil :
                ((if clipCond P g gs X then
                    step :: (calcPathAux P g (X + stepOf P g gs X) (step + 1)
                      (gs + if clipCond P g gs X then 1 else 0) n).gridIdcs
                  else
                    (calcPathAux P g (X + stepOf P g gs X) (step + 1)
                      (gs + if clipCond P g gs X then 1 else 0) n).gridIdcs).filter
                  (fun j => decide (j < step + 0))) = [] := by
              rw [List.filter_eq_nil_iff]
              intro j hj
              simp only [Nat.add_zero, decide_eq_true_eq, not_lt]
              by_cases hc : clipCond P g gs X = true
              · rw [if_pos hc] at hj
                rcases List.mem_cons.mp hj with rfl | hj'
                · exact le_refl j
                · exact Nat.le_of_succ_le (calcPathAux_ge P g n _ _ _ j hj')
              · rw [if_neg hc] at hj
                exact Nat.le_of_succ_le (calcPathAux_ge P g n _ _ _ j hj)
            refine ⟨?_, ?_, ?_, ?_⟩
            · rw [hnil]
              simp
            · simp
            · rw [hnil]
              simp only [List.length_nil, Nat.add_zero, List.take_zero,
                List.sum_nil, add_zero]
              by_cases hc : clipCond P g gs X = true
              · rw [if_pos hc]
                simp [hc]
              · rw [if_neg hc]
                constructor
                · intro hmem
                  have := calcPathAux_ge P g n _ _ _ step hmem
                  omega
                · intro hcc
                  exact absurd hcc hc
            · simpa using h
        | succ i =>
            rw [List.length_cons] at hi
            have hi' := Nat.lt_of_succ_lt_succ hi
            have IH := ih (X + stepOf P g gs X) (step + 1)
              (gs + if clipCond P g gs X then 1 else 0) i hi'
            have harith : step + (i + 1) = step + 1 + i := by omega
            have hfil :
                ∀ (L : List Nat),
                  ((if clipCond P g gs X then step :: L else L).filter
                    (fun j => decide (j < step + (i + 1)))).length
                  = (if clipCond P g gs X then 1 else 0)
                    + (L.filter (fun j => decide (j < step + 1 + i))).length := by
              intro L
              simp only [show step + (i + 1) = step + 1 + i from by omega]
              by_cases hc : clipCond P g gs X = true
              · rw [if_pos hc, if_pos hc, List.filter_cons]
                have : decide (step < step + 1 + i) = true := by
                  simp only [decide_eq_true_eq]
                  omega
                rw [if_pos this, List.length_cons]
                omega
              · rw [if_neg hc, if_neg hc]
                omega
            refine ⟨?_, ?_, ?_, ?_⟩
            · rw [List.getD_cons_succ, List.take_succ_cons, List.sum_cons,
                hfil, ← add_assoc X, ← Nat.add_assoc gs]
              exact IH.1
            · rw [List.getD_cons_succ, List.take_succ_cons, List.sum_cons,
                ← add_assoc X]
              exact IH.2.1
            · rw [List.take_succ_cons, List.sum_cons, hfil, ← add_assoc X,
                ← Nat.add_assoc gs, harith]
              have hmm : step + 1 + i ∈
                  (if clipCond P g gs X then
                    step :: (calcPathAux P g (X + stepOf P g gs X) (step + 1)
                      (gs + if clipCond P g gs X then 1 else 0) n).gridIdcs
                  else
                    (calcPathAux P g (X + stepOf P g gs X) (step + 1)
                      (gs + if clipCond P g gs X then 1 else 0) n).gridIdcs)
                  ↔ step + 1 + i ∈
                    (calcPathAux P g (X + stepOf P g gs X) (step + 1)
                      (gs + if clipCond P g gs X then 1 else 0) n).gridIdcs := by
                by_cases hc : clipCond P g gs X = true
                · rw [if_pos hc, List.mem_cons]
                  constructor
                  · rintro (heq | hmem)
                    · omega
                    · exact hmem
                  · exact fun hmem => Or.inr hmem
                · rw [if_neg hc]
              rw [hmm]
              exact IH.2.2.1
            · rw [List.take_succ_cons, List.sum_cons, ← add_assoc X]
              exact IH.2.2.2
      · simp [calcPathAux, if_neg h] at hi


theorem clipCond_iff_of_grid_ok (P : AtmParams) (g : Option (List ℚ))
    (gs : Nat) (X : ℚ)
    (hg : g = none ∨ ∃ l, g = some l
      ∧ l.any (fun x => decide (x ≠ 0)) = true) :
    clipCond P g gs X = true
      ↔ (gs < gridSize g ∧ gridAt g gs ≤ X + rawStep P X) := by
  rcases hg with rfl | ⟨l, rfl, hany⟩
  · simp [clipCond, gridAny, gridSize]
  · have h1 : gridAny (some l) = true := hany
    simp only [clipCond, h1, Bool.true_and, Bool.and_eq_true,
      decide_eq_true_eq]

/-- C2 (amended): provided the requested snapshot grid is either absent or
has at least one nonzero entry (the code guards on `np.any(int_grid)`,
which an all-zero grid fails), every step `i` of the computed path
satisfies: its recorded inverse density is `ri(X_i)` for `X_i` the
cumulative depth before the step, `X_i` is still below the surface depth,
and the step size is `1/(max_ldec * ri(X_i))` except when that raw step
would reach or overshoot the next requested snapshot depth, in which case
it is clipped to exactly `int_grid[grid_step] - X_i` and the index `i` is
recorded as a snapshot index; when the loop terminates by its own
condition, the cumulative depth has reached `X_surf`. -/
theorem integration_path_steps (P : AtmParams) (g : Option (List ℚ))
    (fuel : Nat)
    (hg : g = none ∨ ∃ l, g = some l
      ∧ l.any (fun x => decide (x ≠ 0)) = true) :
    (∀ i, i < (computePath P g fuel).dXs.length →
      ((computePath P g fuel).rhoInvs.getD i 0
        = P.ri (depthBefore (computePath P g fuel) i)) ∧
      depthBefore (computePath P g fuel) i < P.XSurf ∧
      ((gridStepBefore (computePath P g fuel) i < gridSize g ∧
        gridAt g (gridStepBefore (computePath P g fuel) i)
          ≤ depthBefore (computePath P g fuel) i
            + 1 / (P.maxLdec * P.ri (depthBefore (computePath P g fuel) i))) →
        ((computePath P g fuel).dXs.getD i 0
          = gridAt g (gridStepBefore (computePath P g fuel) i)
            - depthBefore (computePath P g fuel) i ∧
         i ∈ (computePath P g fuel).gridIdcs)) ∧
      (¬(gridStepBefore (computePath P g fuel) i < gridSize g ∧
         gridAt g (gridStepBefore (computePath P g fuel) i)
           ≤ depthBefore (computePath P g fuel) i
             + 1 / (P.maxLdec * P.ri (depthBefore (computePath P g fuel) i))) →
        ((computePath P g fuel).dXs.getD i 0
          = 1 / (P.maxLdec * P.ri (depthBefore (computePath P g fuel) i)) ∧
         i ∉ (computePath P g fuel).gridIdcs))) ∧
    ((computePath P g fuel).done = true →
      P.XSurf ≤ (computePath P g fuel).dXs.sum) := by
  constructor
  · intro i hi
    have H := calcPathAux_idx P g fuel 0 0 0 i hi
    rw [show calcPathAux P g 0 0 0 fuel = computePath P g fuel from rfl] at H
    have hstep : (0 : Nat) + i = i := Nat.zero_add i
    have hgs : (0 : Nat)
        + ((computePath P g fuel).gridIdcs.filter
            (fun j => decide (j < i))).length
        = gridStepBefore (computePath P g fuel) i := by
      simp [gridStepBefore]
    have hX : (0 : ℚ) + ((computePath P g fuel).dXs.take i).sum
        = depthBefore (computePath P g fuel) i := by
      simp [depthBefore]
    rw [hstep] at H
    rw [hgs] at H
    rw [hX] at H
    obtain ⟨hdx, hrho, hmem, hlt⟩ := H
    have hclip := clipCond_iff_of_grid_ok P g
      (gridStepBefore (computePath P g fuel) i)
      (depthBefore (computePath P g fuel) i) hg
    have hraw : rawStep P (depthBefore (computePath P g fuel) i)
        = 1 / (P.maxLdec * P.ri (depthBefore (computePath P g fuel) i)) := rfl
    refine ⟨hrho, hlt, ?_, ?_⟩
    · intro hcond
      rw [← hraw] at hcond
      have hc : clipCond P g (gridStepBefore (computePath P g fuel) i)
          (depthBefore (computePath P g fuel) i) = true := hclip.mpr hcond
      refine ⟨?_, hmem.mpr hc⟩
      rw [hdx]
      simp only [stepOf]
      rw [if_pos hc]
    · intro hcond
      rw [← hraw] at hcond
      have hc : ¬clipCond P g (gridStepBefore (computePath P g fuel) i)
          (depthBefore (computePath P g fuel) i) = true :=
        fun ht => hcond (hclip.mp ht)
      refine ⟨?_, fun hmem2 => hc (hmem.mp hmem2)⟩
      rw [hdx]
      simp only [stepOf]
      rw [if_neg hc, hraw]
  · intro hd
    have := calcPathAux_done P g fuel 0 0 0 hd
    simpa [computePath] using this

/-- Witness for C2: `X_surf = 2`, `ri = 1`, `max_ldec = 1`, snapshot grid
`[3/2]`: the second step is clipped to `3/2 - 1 = 1/2` and recorded. -/
theorem integration_path_steps_witness :
    (computePath ⟨2, fun _ => 1, 1⟩ (some [3/2]) 5).dXs.getD 1 0 = 1/2 ∧
    1 ∈ (computePath ⟨2, fun _ => 1, 1⟩ (some [3/2]) 5).gridIdcs := by
  have h := ((integration_path_steps ⟨2, fun _ => 1, 1⟩ (some [3/2]) 5
    (Or.inr ⟨[3/2], rfl, by norm_num⟩)).1 1 (by
      norm_num [computePath, calcPathAux, stepOf, clipCond, gridAny,
        gridSize, gridAt, rawStep])).2.2.1 (by
      norm_num [computePath, calcPathAux, stepOf, clipCond, gridAny,
        gridSize, gridAt, rawStep, depthBefore, gridStepBefore])
  constructor
  · rw [h.1]
    norm_num [computePath, calcPathAux, stepOf, clipCond, gridAny, gridSize,
      gridAt, rawStep, depthBefore, gridStepBefore]
  · exact h.2

/-- Counterexample to C2 as stated: with the requested snapshot grid
`[0]` (all entries zero, so `np.any(int_grid)` is falsy), surface depth 1,
`ri = 1` and `max_ldec = 1`, the first step would reach the requested
depth 0, yet the code neither clips the step to `0 - 0` nor records step
0 as a snapshot index. -/
theorem integration_path_steps_counterexample :
    ¬((gridStepBefore (computePath ⟨1, fun _ => 1, 1⟩ (some [0]) 2) 0
          < gridSize (some [0]) ∧
        gridAt (some [0])
            (gridStepBefore (computePath ⟨1, fun _ => 1, 1⟩ (some [0]) 2) 0)
          ≤ depthBefore (computePath ⟨1, fun _ => 1, 1⟩ (some [0]) 2) 0
            + 1 / ((1 : ℚ) * 1)) →
      ((computePath ⟨1, fun _ => 1, 1⟩ (some [0]) 2).dXs.getD 0 0
          = gridAt (some [0])
              (gridStepBefore (computePath ⟨1, fun _ => 1, 1⟩ (some [0]) 2) 0)
            - depthBefore (computePath ⟨1, fun _ => 1, 1⟩ (some [0]) 2) 0 ∧
        0 ∈ (computePath ⟨1, fun _ => 1, 1⟩ (some [0]) 2).gridIdcs)) := by
  intro himp
  have h := himp (by
    norm_num [computePath, calcPathAux, stepOf, clipCond, gridAny, gridSize,
      gridAt, rawStep, depthBefore, gridStepBefore])
  have hmem : (0 : Nat) ∈ (computePath ⟨1, fun _ => 1, 1⟩ (some [0]) 2).gridIdcs :=
    h.2
  norm_num [computePath, calcPathAux, stepOf, clipCond, gridAny, gridSize,
    gridAt, rawStep] at hmem

/-! ## Stateful wrapper of `_calculate_integration_path`

The method first checks
`self.integration_path and np.alltrue(int_grid == self.int_grid) and
np.alltrue(self.grid_var == grid_var)` and returns the cached path
unchanged on a hit; otherwise it stores the new `int_grid`/`grid_var`,
raises `NotImplementedError` for a grid variable other than `'X'`, and
else computes and stores the path.
-/

/-- `np.alltrue(int_grid == self.int_grid)` for grids that are `None` or
arrays: `None == None` is truthy, an array compares elementwise, and a
`None`/array comparison is falsy. -/
def npGridEq : Option (List ℚ) → Option (List ℚ) → Bool
  | none, none => true
  | some a, some b => decide (a = b)
  | _, _ => false

/-- The mutable `MCEqRun` state touched by `_calculate_integration_path`. -/
structure RunState where
  atm : AtmParams
  integration_path : Option PathOut
  int_grid : Option (List ℚ)
  grid_var : List Char

/-- The early-return (memoization) condition. -/
def memoHit (st : RunState) (g : Option (List ℚ)) (v : List Char) : Bool :=
  st.integration_path.isSome && npGridEq g st.int_grid
    && decide (st.grid_var = v)

/-- Outcome of a call: a normal return or a raised `NotImplementedError`,
each carrying the state of the object afterwards. -/
inductive CalcOutcome where
  | ok (st : RunState)
  | raised (st : RunState)

/-- `MCEqRun._calculate_integration_path`: memo check, store the new
`int_grid`/`grid_var`, reject grid variables other than `'X'`, else
compute and store the path. -/
def _calculate_integration_path (fuel : Nat) (st : RunState)
    (int_grid : Option (List ℚ)) (grid_var : List Char) : CalcOutcome :=
  if memoHit st int_grid grid_var then .ok st
  else if grid_var ≠ "X".data then
    .raised { st with int_grid := int_grid, grid_var := grid_var }
  else
    .ok { st with
          int_grid := int_grid
          grid_var := grid_var
          integration_path := some (computePath st.atm int_grid fuel) }

theorem npGridEq_refl (g : Option (List ℚ)) : npGridEq g g = true := by
  cases g <;> simp [npGridEq]

/-- C6: a second call with the same requested grid and grid variable as a
previous successful call returns the state unchanged, without
recomputation (idempotent memoization); and the computation is
deterministic: two states with the same atmospheric inputs and no memo
hit store equal integration paths for the same request. -/
theorem calculate_integration_path_memo :
    (∀ (fuel fuel2 : Nat) (st : RunState) (g : Option (List ℚ))
        (v : List Char) (st2 : RunState),
      _calculate_integration_path fuel st g v = .ok st2 →
      _calculate_integration_path fuel2 st2 g v = .ok st2) ∧
    (∀ (fuel : Nat) (sa sb : RunState) (g : Option (List ℚ))
        (v : List Char) (pa pb : RunState),
      sa.atm = sb.atm →
      memoHit sa g v = false → memoHit sb g v = false →
      _calculate_integration_path fuel sa g v = .ok pa →
      _calculate_integration_path fuel sb g v = .ok pb →
      pa.integration_path = pb.integration_path) := by
  constructor
  · intro fuel fuel2 st g v st2 h
    simp only [_calculate_integration_path] at h
    by_cases hm : memoHit st g v = true
    · rw [if_pos hm] at h
      cases h
      simp [_calculate_integration_path, hm]
    · rw [if_neg hm] at h
      by_cases hv : v = "X".data
      · rw [if_neg (by simpa using hv)] at h
        cases h
        have hm2 : memoHit ⟨st.atm, some (computePath st.atm g fuel), g, v⟩
            g v = true := by
          simp [memoHit, npGridEq_refl]
        simp [_calculate_integration_path, hm2]
      · rw [if_pos (by simpa using hv)] at h
        cases h
  · intro fuel sa sb g v pa pb hatm hma hmb ha hb
    simp only [_calculate_integration_path] at ha hb
    rw [if_neg (by simp [hma])] at ha
    rw [if_neg (by simp [hmb])] at hb
    by_cases hv : v = "X".data
    · rw [if_neg (by simpa using hv)] at ha hb
      cases ha
      cases hb
      simp [hatm]
    · rw [if_pos (by simpa using hv)] at ha
      cases ha

/-- Witness for C6: a memo-hit call on a cached state returns the state
unchanged, and so does calling again. -/
theorem calculate_integration_path_memo_witness :
    _calculate_integration_path 2
      ⟨⟨1, fun _ => 1, 1⟩, some ⟨[], [], [], true⟩, none, "X".data⟩
      none "X".data
      = .ok ⟨⟨1, fun _ => 1, 1⟩, some ⟨[], [], [], true⟩, none, "X".data⟩ := by
  exact calculate_integration_path_memo.1 1 2
    ⟨⟨1, fun _ => 1, 1⟩, some ⟨[], [], [], true⟩, none, "X".data⟩ none
    "X".data ⟨⟨1, fun _ => 1, 1⟩, some ⟨[], [], [], true⟩, none, "X".data⟩
    (by simp only [_calculate_integration_path]; rw [if_pos (by rfl)])

/-- Counterexample to C7 as stated: a state whose cached path was computed
earlier but whose stored `grid_var` is `'Y'` (reachable after a raised
call stored it) makes a repeated `'Y'` request hit the memo check and
return normally — no error is raised for this non-`'X'` grid variable. -/
theorem calculate_integration_path_non_X_counterexample :
    ("Y".data ≠ "X".data) ∧
    ∀ st2 : RunState,
      _calculate_integration_path 1
        ⟨⟨1, fun _ => 1, 1⟩, some ⟨[], [], [], true⟩, none, "Y".data⟩
        none "Y".data ≠ .raised st2 := by
  constructor
  · decide
  · intro st2 hcontra
    simp only [_calculate_integration_path] at hcontra
    rw [if_pos (by rfl)] at hcontra
    exact CalcOutcome.noConfusion hcontra

/-- C7 (amended): whenever the memo check misses, a grid variable other
than `'X'` makes `_calculate_integration_path` raise
`NotImplementedError` after storing the new request, and the stored
integration path is left unchanged — no depth-step sequence is computed.
(When the memo check hits, the method returns the cached path without
raising, even for a stored non-`'X'` grid variable.) -/
theorem calculate_integration_path_non_X (fuel : Nat) (st : RunState)
    (g : Option (List ℚ)) (v : List Char) (hv : v ≠ "X".data)
    (hmiss : memoHit st g v = false) :
    _calculate_integration_path fuel st g v
      = .raised { st with int_grid := g, grid_var := v } ∧
    ({ st with int_grid := g, grid_var := v } : RunState).integration_path
      = st.integration_path := by
  constructor
  · simp only [_calculate_integration_path]
    rw [if_neg (by simp [hmiss]), if_pos (by simpa using hv)]
  · rfl

/-- Witness for C7 (amended) at a fresh state and grid variable `'Y'`. -/
theorem calculate_integration_path_non_X_witness :
    _calculate_integration_path 1 ⟨⟨1, fun _ => 1, 1⟩, none, none, "X".data⟩
      none "Y".data
      = .raised ⟨⟨1, fun _ => 1, 1⟩, none, none, "Y".data⟩ := by
  exact (calculate_integration_path_non_X 1
    ⟨⟨1, fun _ => 1, 1⟩, none, none, "X".data⟩ none "Y".data (by decide)
    (by rfl)).1

/-! ## The ODE-stepper solve (`_odepack`) and the kernel solve

`_odepack` runs `while r.successful() and r.t < X_surf: r.integrate(r.t +
dXstep)`, then unconditionally performs a last `r.integrate(X_surf)` and
stores `self.solution = r.y`.  The scipy stepper is abstracted as a state
type with `integrate`/`successful`/`t`/`y`; the previously stored
solution is passed in to express what happens to it.  `_forward_euler`
assigns `self.solution, self.grid_sol = kernel(...)`, so an exception
inside the kernel (modelled as `none`) leaves the previous solution
untouched.
-/

/-- Abstract scipy `ode` stepper state: current depth `t` and state
vector `y`. -/
structure Stepper where
  t : ℚ
  y : List ℚ
deriving DecidableEq

/-- The stepper's operations: `integrate(target)` and `successful()`. -/
structure OdeSys where
  integrate : Stepper → ℚ → Stepper
  successful : Stepper → Bool

/-- The `while r.successful() and r.t < X_surf` loop of `_odepack`. -/
def odepackLoop (S : OdeSys) (XSurf dXstep : ℚ) : Stepper → Nat → Stepper
  | r, 0 => r
  | r, fuel + 1 =>
    if S.successful r && decide (r.t < XSurf) then
      odepackLoop S XSurf dXstep (S.integrate r (r.t + dXstep)) fuel
    else r

/-- `MCEqRun._odepack`: loop, then a final `r.integrate(X_surf)`, then
`self.solution = r.y` — the returned value is the new stored solution;
`prev_solution` is the solution stored before the call. -/
def _odepack (S : OdeSys) (XSurf dXstep : ℚ) (r0 : Stepper) (fuel : Nat)
    (prev_solution : List ℚ) : List ℚ :=
  (S.integrate (odepackLoop S XSurf dXstep r0 fuel) XSurf).y

/-- The solution stored by `_forward_euler`: the kernel either returns
`(solution, grid_sol)` or raises (`none`), in which case the assignment
never happens and the previous solution stays. -/
def forward_euler_solution (kernel_result : Option (List ℚ × List (List ℚ)))
    (prev_solution : List ℚ) : List ℚ :=
  match kernel_result with
  | none => prev_solution
  | some r => r.1

/-- Counterexample to C5 as stated: a stepper that reports failure from
the start (`successful() = false` while `t = 0 < X_surf = 5`) still ends
with `self.solution = r.y`: the previous solution `[7]` is overwritten by
the failed stepper's state `[2]`. -/
theorem odepack_overwrites_counterexample :
    ((⟨fun r _ => ⟨r.t, [2]⟩, fun _ => false⟩ : OdeSys).successful ⟨0, [1]⟩
      = false) ∧
    ((0 : ℚ) < 5) ∧
    _odepack ⟨fun r _ => ⟨r.t, [2]⟩, fun _ => false⟩ 5 1 ⟨0, [1]⟩ 10 [7]
      ≠ [7] ∧
    _odepack ⟨fun r _ => ⟨r.t, [2]⟩, fun _ => false⟩ 5 1 ⟨0, [1]⟩ 10 [7]
      = [2] := by
  refine ⟨rfl, by norm_num, ?_, ?_⟩
  · simp [_odepack, odepackLoop]
  · simp [_odepack, odepackLoop]

/-- C5 (amended): `_odepack` always stores `r.y` of the stepper state
after the final `integrate(X_surf)` call, regardless of reported success;
in particular, when the stepper fails from the start the loop body never
runs and the previous solution is replaced by the failed stepper's
output, not preserved.  Only `_forward_euler` leaves the previous
solution intact on failure, because its solution assignment happens after
the kernel returns. -/
theorem odepack_overwrites (S : OdeSys) (XSurf dXstep : ℚ) (r0 : Stepper)
    (fuel : Nat) (prev : List ℚ) :
    _odepack S XSurf dXstep r0 fuel prev
      = (S.integrate (odepackLoop S XSurf dXstep r0 fuel) XSurf).y ∧
    (S.successful r0 = false →
      odepackLoop S XSurf dXstep r0 fuel = r0 ∧
      _odepack S XSurf dXstep r0 fuel prev = (S.integrate r0 XSurf).y) ∧
    forward_euler_solution none prev = prev := by
  refine ⟨rfl, ?_, rfl⟩
  intro hfail
  have hloop : odepackLoop S XSurf dXstep r0 fuel = r0 := by
    cases fuel with
    | zero => rfl
    | succ n => simp [odepackLoop, hfail]
  exact ⟨hloop, by rw [_odepack, hloop]⟩

/-- Witness for C5 (amended) at the concrete failing stepper. -/
theorem odepack_overwrites_witness :
    odepackLoop ⟨fun r _ => ⟨r.t, [2]⟩, fun _ => false⟩ 5 1 ⟨0, [1]⟩ 10
      = ⟨0, [1]⟩ ∧
    _odepack ⟨fun r _ => ⟨r.t, [2]⟩, fun _ => false⟩ 5 1 ⟨0, [1]⟩ 10 [7]
      = ((⟨fun r _ => ⟨r.t, [2]⟩, fun _ => false⟩ : OdeSys).integrate
          ⟨0, [1]⟩ 5).y :=
  (odepack_overwrites ⟨fun r _ => ⟨r.t, [2]⟩, fun _ => false⟩ 5 1 ⟨0, [1]⟩
    10 [7]).2.1 rfl

/-! ## Particle list generation (`_gen_list_of_particles`)

The catalog is sorted by critical energy ascending; after the mixing
computation each particle is either a resonance or a cascade particle;
cascade particles receive sequential `nceidx` values; the species list is
`cascade_particles + resonances`.  `MCEqRun.__init__` then builds the
lookup dictionaries, storing `-1` for particles without an `nceidx`
attribute (the resonances).
-/

/-- A catalog particle as consumed by `_gen_list_of_particles` and
`_init_alias_tables`: identifier, critical energy and classification
flags (the flags are computed by the external `NCEParticle` class). -/
structure CatalogEntry where
  pdgid : ℤ
  E_crit : ℚ
  is_resonance : Bool
  is_lepton : Bool
  is_alias : Bool
deriving DecidableEq

/-- A particle after list generation: same data plus the assigned state
vector index `nceidx` (absent for resonances, mirroring the missing
attribute). -/
structure NCEP where
  pdgid : ℤ
  E_crit : ℚ
  is_resonance : Bool
  is_lepton : Bool
  is_alias : Bool
  nceidx : Option Nat
deriving DecidableEq

/-- Forgetting the assigned index. -/
def toEntry (p : NCEP) : CatalogEntry :=
  ⟨p.pdgid, p.E_crit, p.is_resonance, p.is_lepton, p.is_alias⟩

/-- The sort key comparison `key=lambda x: x.E_crit`. -/
def leE (a b : CatalogEntry) : Bool := decide (a.E_crit ≤ b.E_crit)

/-- `MCEqRun._gen_list_of_particles`: sort the catalog by critical
energy, split into cascade particles and resonances, number the cascade
particles sequentially, and return
`(cascade_particles + resonances, cascade_particles, resonances)`. -/
def _gen_list_of_particles (catalog : List CatalogEntry) :
    List NCEP × List NCEP × List NCEP :=
  let particle_list := catalog.mergeSort leE
  let cascade_particles :=
    (particle_list.filter (fun p => !p.is_resonance)).enum.map
      (fun ip => ⟨ip.2.pdgid, ip.2.E_crit, ip.2.is_resonance,
                  ip.2.is_lepton, ip.2.is_alias, some ip.1⟩)
  let resonances :=
    (particle_list.filter (fun p => p.is_resonance)).map
      (fun p => ⟨p.pdgid, p.E_crit, p.is_resonance,
                 p.is_lepton, p.is_alias, none⟩)
  (cascade_particles ++ resonances, cascade_particles, resonances)

/-- The value the `__init__` loop stores in `pdg2nceidx`: `p.nceidx` when
the attribute exists, else `-1`. -/
def storedIdx (p : NCEP) : ℤ :=
  match p.nceidx with
  | some i => (i : ℤ)
  | none => -1

/-- One dictionary assignment `self.pdg2nceidx[p.pdgid] = nceidx`. -/
def updD (m : ℤ → Option ℤ) (p : NCEP) : ℤ → Option ℤ :=
  fun q => if q = p.pdgid then some (storedIdx p) else m q

/-- The `pdg2nceidx` dictionary built by the `__init__` loop over
`particle_species`. -/
def pdg2nceidx (species : List NCEP) : ℤ → Option ℤ :=
  species.foldl updD (fun _ => none)

/-- Modelled from the spec: the state-vector block of the cascade
particle with index `nceidx` for energy-grid dimension `d`.  The
`lidx`/`uidx` methods live in `MCEq.data.NCEParticle`, which is not part
of this repository's sources; per the spec each cascade-tracked species
owns one contiguous block of width equal to the energy-grid size. -/
def specBlock (d : Nat) (nceidx : Nat) : Nat × Nat :=
  (nceidx * d, nceidx * d + d)

theorem foldl_updD_not_mem (l : List NCEP) (m : ℤ → Option ℤ) (q : ℤ)
    (h : ∀ p ∈ l, p.pdgid ≠ q) : (l.foldl updD m) q = m q := by
  induction l generalizing m with
  | nil => rfl
  | cons p t ih =>
      rw [List.foldl_cons, ih _ (fun p2 hp2 => h p2 (List.mem_cons_of_mem p hp2))]
      simp only [updD]
      rw [if_neg (fun hq => h p (List.mem_cons_self p t) hq.symm)]

theorem foldl_updD_mem (l1 : List NCEP) (p : NCEP) (l2 : List NCEP)
    (m : ℤ → Option ℤ) (h : ∀ p2 ∈ l2, p2.pdgid ≠ p.pdgid) :
    ((l1 ++ p :: l2).foldl updD m) p.pdgid = some (storedIdx p) := by
  rw [List.foldl_append, List.foldl_cons, foldl_updD_not_mem l2 _ _ h]
  simp [updD]

theorem leE_trans : ∀ a b c : CatalogEntry,
    leE a b = true → leE b c = true → leE a c = true := by
  intro a b c hab hbc
  simp only [leE, decide_eq_true_eq] at *
  exact le_trans hab hbc

theorem leE_total : ∀ a b : CatalogEntry, (leE a b || leE b a) = true := by
  intro a b
  simp only [leE, Bool.or_eq_true, decide_eq_true_eq]
  exact le_total _ _

theorem sorted_particle_list (catalog : List CatalogEntry) :
    List.Pairwise (fun a b => a.E_crit ≤ b.E_crit)
      (catalog.mergeSort leE) := by
  refine (List.sorted_mergeSort leE_trans leE_total catalog).imp ?_
  intro a b hab
  simpa [leE] using hab

theorem particle_species_map_toEntry (catalog : List CatalogEntry) :
    ((_gen_list_of_particles catalog).1.map toEntry).Perm catalog := by
  have h1 : (_gen_list_of_particles catalog).1.map toEntry
      = ((catalog.mergeSort leE).filter (fun p => !p.is_resonance))
        ++ ((catalog.mergeSort leE).filter (fun p => p.is_resonance)) := by
    show (((catalog.mergeSort leE).filter (fun p => !p.is_resonance)).enum.map
        (fun ip => (⟨ip.2.pdgid, ip.2.E_crit, ip.2.is_resonance,
                     ip.2.is_lepton, ip.2.is_alias, some ip.1⟩ : NCEP))
        ++ ((catalog.mergeSort leE).filter (fun p => p.is_resonance)).map
        (fun p => (⟨p.pdgid, p.E_crit, p.is_resonance,
                    p.is_lepton, p.is_alias, none⟩ : NCEP))).map toEntry = _
    rw [List.map_append, List.map_map, List.map_map]
    congr 1
    · exact List.enum_map_snd _
    · exact List.map_id _
  rw [h1]
  have h2 : ((catalog.mergeSort leE).filter (fun p => !p.is_resonance)
      ++ ((catalog.mergeSort leE).filter (fun p => p.is_resonance))).Perm
      (catalog.mergeSort leE) := by
    have := List.filter_append_perm (fun p : CatalogEntry => !p.is_resonance)
      (catalog.mergeSort leE)
    simpa [Bool.not_not] using this
  exact h2.trans (List.mergeSort_perm catalog leE)

theorem particle_species_pdgid_nodup (catalog : List CatalogEntry)
    (hnodup : (catalog.map (fun p => p.pdgid)).Nodup) :
    ((_gen_list_of_particles catalog).1.map (fun p => p.pdgid)).Nodup := by
  have h1 : (_gen_list_of_particles catalog).1.map (fun p => p.pdgid)
      = ((_gen_list_of_particles catalog).1.map toEntry).map
          (fun p => p.pdgid) := by
    rw [List.map_map]
    rfl
  rw [h1]
  exact ((particle_species_map_toEntry catalog).map _).nodup_iff.mpr hnodup

/-- C8: particle list generation sorts the catalog by critical energy
ascending (both returned classes are in that order and together they are
a permutation of the catalog), classifies species into cascade particles
and resonances, gives the `i`-th cascade particle the sequential state
vector index `nceidx = i` (owning the contiguous block
`[i*d, (i+1)*d)` of width `d` under the spec's block layout), while
resonances get no index — the lookup table maps them to `-1` — yet stay
in the `particle_species` list (`cascade ++ resonances`). -/
theorem gen_list_of_particles_spec (catalog : List CatalogEntry) (d : Nat)
    (hnodup : (catalog.map (fun p => p.pdgid)).Nodup) :
    (_gen_list_of_particles catalog).1
      = (_gen_list_of_particles catalog).2.1
        ++ (_gen_list_of_particles catalog).2.2 ∧
    ((_gen_list_of_particles catalog).1.map toEntry).Perm catalog ∧
    List.Pairwise (fun a b => a.E_crit ≤ b.E_crit)
      (_gen_list_of_particles catalog).2.1 ∧
    List.Pairwise (fun a b => a.E_crit ≤ b.E_crit)
      (_gen_list_of_particles catalog).2.2 ∧
    (∀ i, (hi : i < (_gen_list_of_particles catalog).2.1.length) →
      ((_gen_list_of_particles catalog).2.1.get ⟨i, hi⟩).nceidx = some i ∧
      ((_gen_list_of_particles catalog).2.1.get ⟨i, hi⟩).is_resonance
        = false ∧
      pdg2nceidx (_gen_list_of_particles catalog).1
          ((_gen_list_of_particles catalog).2.1.get ⟨i, hi⟩).pdgid
        = some (i : ℤ)) ∧
    (∀ p ∈ (_gen_list_of_particles catalog).2.2,
      p.is_resonance = true ∧ p.nceidx = none ∧
      pdg2nceidx (_gen_list_of_particles catalog).1 p.pdgid = some (-1)) ∧
    (∀ i : Nat, (specBlock d i).2 = (specBlock d i).1 + d ∧
      (specBlock d (i + 1)).1 = (specBlock d i).2) := by
  have hnodup2 := particle_species_pdgid_nodup catalog hnodup
  have hsorted := sorted_particle_list catalog
  have hps : (_gen_list_of_particles catalog).1
      = (_gen_list_of_particles catalog).2.1
        ++ (_gen_list_of_particles catalog).2.2 := rfl
  have split_ne : ∀ (A B : List NCEP) (b : NCEP),
      (_gen_list_of_particles catalog).1 = A ++ b :: B →
      ∀ p2 ∈ B, p2.pdgid ≠ b.pdgid := by
    intro A B b hsplit p2 hp2
    have h1 : ((A ++ b :: B).map (fun p => p.pdgid)).Nodup := by
      rw [← hsplit]; exact hnodup2
    rw [List.map_append, List.map_cons] at h1
    have h2 := (List.nodup_cons.mp h1.of_append_right).1
    intro hcontra
    exact h2 (hcontra ▸ List.mem_map_of_mem (fun p => p.pdgid) hp2)
  refine ⟨hps, particle_species_map_toEntry catalog, ?_, ?_, ?_, ?_, ?_⟩
  · have h1 : List.Pairwise (fun a b : CatalogEntry => a.E_crit ≤ b.E_crit)
        ((((catalog.mergeSort leE).filter
          (fun p => !p.is_resonance)).enum).map Prod.snd) := by
      rw [List.enum_map_snd]
      exact hsorted.filter _
    have h2 := List.pairwise_map.mp h1
    exact List.pairwise_map.mpr h2
  · exact List.pairwise_map.mpr (hsorted.filter _)
  · intro i hi
    have hb : i < ((catalog.mergeSort leE).filter
        (fun p => !p.is_resonance)).length := by
      simpa [_gen_list_of_particles] using hi
    have hget : (_gen_list_of_particles catalog).2.1.get ⟨i, hi⟩
        = (⟨(((catalog.mergeSort leE).filter
                (fun p => !p.is_resonance)).get ⟨i, hb⟩).pdgid,
            (((catalog.mergeSort leE).filter
                (fun p => !p.is_resonance)).get ⟨i, hb⟩).E_crit,
            (((catalog.mergeSort leE).filter
                (fun p => !p.is_resonance)).get ⟨i, hb⟩).is_resonance,
            (((catalog.mergeSort leE).filter
                (fun p => !p.is_resonance)).get ⟨i, hb⟩).is_lepton,
            (((catalog.mergeSort leE).filter
                (fun p => !p.is_resonance)).get ⟨i, hb⟩).is_alias,
            some i⟩ : NCEP) := by
      show (((catalog.mergeSort leE).filter
          (fun p => !p.is_resonance)).enum.map
          (fun ip => (⟨ip.2.pdgid, ip.2.E_crit, ip.2.is_resonance,
            ip.2.is_lepton, ip.2.is_alias, some ip.1⟩ : NCEP))).get ⟨i, _⟩
          = _
      rw [List.get_eq_getElem, List.getElem_map, List.getElem_enum]
      simp [List.get_eq_getElem]
    refine ⟨by rw [hget], ?_, ?_⟩
    · rw [hget]
      have hmem := List.get_mem ((catalog.mergeSort leE).filter
        (fun p => !p.is_resonance)) i hb
      have := List.of_mem_filter hmem
      simpa using this
    · have hone : (_gen_list_of_particles catalog).2.1
          = (_gen_list_of_particles catalog).2.1.take i
            ++ (_gen_list_of_particles catalog).2.1.get ⟨i, hi⟩
              :: (_gen_list_of_particles catalog).2.1.drop (i + 1) := by
        rw [← List.drop_eq_get_cons hi, List.take_append_drop]
      have hsplit : (_gen_list_of_particles catalog).1
          = ((_gen_list_of_particles catalog).2.1.take i)
            ++ ((_gen_list_of_particles catalog).2.1.get ⟨i, hi⟩
              :: ((_gen_list_of_particles catalog).2.1.drop (i + 1)
                ++ (_gen_list_of_particles catalog).2.2)) := by
        rw [hps]
        conv_lhs => rw [hone]
        rw [List.append_assoc, List.cons_append]
      have hne := split_ne _ _ _ hsplit
      have := foldl_updD_mem
        ((_gen_list_of_particles catalog).2.1.take i)
        ((_gen_list_of_particles catalog).2.1.get ⟨i, hi⟩)
        ((_gen_list_of_particles catalog).2.1.drop (i + 1)
          ++ (_gen_list_of_particles catalog).2.2)
        (fun _ => none) hne
      rw [pdg2nceidx, hsplit, this, hget]
      simp [storedIdx]
  · intro p hp
    have hp2 : p ∈ ((catalog.mergeSort leE).filter
        (fun p => p.is_resonance)).map
        (fun q => (⟨q.pdgid, q.E_crit, q.is_resonance,
                    q.is_lepton, q.is_alias, none⟩ : NCEP)) := hp
    obtain ⟨q, hq, rfl⟩ := List.mem_map.mp hp2
    refine ⟨by simpa using List.of_mem_filter hq, rfl, ?_⟩
    obtain ⟨r1, r2, hr⟩ := List.append_of_mem hp
    have hsplit : (_gen_list_of_particles catalog).1
        = ((_gen_list_of_particles catalog).2.1 ++ r1)
          ++ (⟨q.pdgid, q.E_crit, q.is_resonance, q.is_lepton, q.is_alias,
               none⟩ : NCEP) :: r2 := by
      rw [hps, hr, ← List.append_assoc]
    have hne := split_ne _ _ _ hsplit
    have := foldl_updD_mem
      ((_gen_list_of_particles catalog).2.1 ++ r1)
      (⟨q.pdgid, q.E_crit, q.is_resonance, q.is_lepton, q.is_alias, none⟩)
      r2 (fun _ => none) hne
    rw [pdg2nceidx, hsplit]
    exact this
  · intro i
    refine ⟨rfl, ?_⟩
    show (i + 1) * d = i * d + d
    ring

/-- Witness for C8 on a three-particle catalog (one resonance between two
cascade particles): the resonance is looked up as `-1`. -/
theorem gen_list_of_particles_spec_witness :
    pdg2nceidx (_gen_list_of_particles
        [⟨211, 5, false, false, false⟩, ⟨331, 3, true, false, false⟩,
         ⟨13, 1, false, true, false⟩]).1 331 = some (-1) := by
  have h := gen_list_of_particles_spec
    [⟨211, 5, false, false, false⟩, ⟨331, 3, true, false, false⟩,
     ⟨13, 1, false, true, false⟩] 4 (by decide)
  have hev2 : (_gen_list_of_particles
      [(⟨211, 5, false, false, false⟩ : CatalogEntry),
       ⟨331, 3, true, false, false⟩,
       ⟨13, 1, false, true, false⟩]).2.2
      = [⟨331, 3, true, false, false, none⟩] := by
    norm_num [_gen_list_of_particles, List.mergeSort, leE]
  have hp : (⟨331, 3, true, false, false, none⟩ : NCEP)
      ∈ (_gen_list_of_particles
        [(⟨211, 5, false, false, false⟩ : CatalogEntry),
         ⟨331, 3, true, false, false⟩,
         ⟨13, 1, false, true, false⟩]).2.2 := by
    rw [hev2]
    exact List.mem_singleton.mpr rfl
  exact (h.2.2.2.2.2.1 _ hp).2.2

/-! ## Alias table construction (`_init_alias_tables`)

For each lepton id in `[12, 13, 14, 16]` the table maps `(211, lep)` to
the pion alias `7100 + lep`, `(321, lep)` to the kaon alias `7200 + lep`,
and `(pr, lep)` to the prompt alias `7000 + lep` for every `pr` in
`prompt_ids` — the catalog species that are not leptons, not aliases,
have non-negative identifiers and critical energy at least
`pdg2pref[411].E_crit` (passed in as `ecrit411`).
-/

/-- The `prompt_ids` list accumulated by the first loop of
`_init_alias_tables`. -/
def prompt_ids (species : List NCEP) (ecrit411 : ℚ) : List ℤ :=
  (species.filter (fun p =>
    !(p.is_lepton || p.is_alias || decide (p.pdgid < 0))
      && decide (ecrit411 ≤ p.E_crit))).map (fun p => p.pdgid)

/-- One dictionary assignment `self.alias_table[k] = v`. -/
def dUpd (m : ℤ × ℤ → Option ℤ) (k : ℤ × ℤ) (v : ℤ) : ℤ × ℤ → Option ℤ :=
  fun q => if q = k then some v else m q

/-- The per-lepton body of the alias loop: the pion entry, the kaon
entry, then one prompt entry per prompt id. -/
def lepStep (species : List NCEP) (ecrit411 : ℚ)
    (t : ℤ × ℤ → Option ℤ) (lep : ℤ) : ℤ × ℤ → Option ℤ :=
  (prompt_ids species ecrit411).foldl
    (fun t2 pr => dUpd t2 (pr, lep) (7000 + lep))
    (dUpd (dUpd t (211, lep) (7100 + lep)) (321, lep) (7200 + lep))

/-- The `alias_table` built by `_init_alias_tables`. -/
def init_alias_table (species : List NCEP) (ecrit411 : ℚ) :
    ℤ × ℤ → Option ℤ :=
  [12, 13, 14, 16].foldl (lepStep species ecrit411) (fun _ => none)

theorem foldl_dUpd_prompt (prs : List ℤ) (lep v : ℤ)
    (t : ℤ × ℤ → Option ℤ) (q : ℤ × ℤ) :
    (prs.foldl (fun t2 pr => dUpd t2 (pr, lep) v) t) q
      = if q.2 = lep ∧ q.1 ∈ prs then some v else t q := by
  induction prs generalizing t with
  | nil => simp
  | cons pr rest ih =>
      rw [List.foldl_cons, ih]
      by_cases h2 : q.2 = lep
      · by_cases hin : q.1 ∈ rest
        · simp [h2, hin]
        · by_cases hpr : q.1 = pr
          · simp [h2, hin, hpr, dUpd, Prod.ext_iff]
          · simp [h2, hin, hpr, dUpd, Prod.ext_iff]
      · simp [h2, dUpd, Prod.ext_iff]

theorem lepStep_lookup (species : List NCEP) (ecrit411 : ℚ)
    (t : ℤ × ℤ → Option ℤ) (lep : ℤ) (q : ℤ × ℤ) :
    lepStep species ecrit411 t lep q
      = if q.2 = lep ∧ q.1 ∈ prompt_ids species ecrit411 then
          some (7000 + lep)
        else if q = (321, lep) then some (7200 + lep)
        else if q = (211, lep) then some (7100 + lep)
        else t q := by
  rw [lepStep, foldl_dUpd_prompt]
  by_cases h : q.2 = lep ∧ q.1 ∈ prompt_ids species ecrit411
  · rw [if_pos h, if_pos h]
  · rw [if_neg h, if_neg h]
    simp [dUpd]

/-- C9: the alias table contains exactly the entries
`(211, l) ↦ 7100 + l`, `(321, l) ↦ 7200 + l` and `(p, l) ↦ 7000 + l` for
`p` in the prompt list, for `l ∈ {12, 13, 14, 16}`, and nothing else;
the prompt list consists exactly of the catalog species that are not
leptons, not aliases, have positive identifiers and critical energy at
least that of the charmed hadron 411.  (The pion/kaon entries keep their
values provided `211`/`321` are themselves not prompt, as is the case
physically; and identifier `0` does not occur in the catalog.) -/
theorem init_alias_tables_spec (species : List NCEP) (ecrit411 : ℚ)
    (m l : ℤ)
    (h211 : (211 : ℤ) ∉ prompt_ids species ecrit411)
    (h321 : (321 : ℤ) ∉ prompt_ids species ecrit411)
    (h0 : ∀ p ∈ species, p.pdgid ≠ 0) :
    init_alias_table species ecrit411 (m, l)
      = (if l = 12 ∨ l = 13 ∨ l = 14 ∨ l = 16 then
           if m = 211 then some (7100 + l)
           else if m = 321 then some (7200 + l)
           else if m ∈ prompt_ids species ecrit411 then some (7000 + l)
           else none
         else none) ∧
    (m ∈ prompt_ids species ecrit411
      ↔ ∃ p ∈ species, p.pdgid = m ∧ p.is_lepton = false ∧
          p.is_alias = false ∧ 0 < p.pdgid ∧ ecrit411 ≤ p.E_crit) := by
  constructor
  · rw [init_alias_table]
    simp only [List.foldl_cons, List.foldl_nil]
    rw [lepStep_lookup, lepStep_lookup, lepStep_lookup, lepStep_lookup]
    by_cases hl : l = 12 ∨ l = 13 ∨ l = 14 ∨ l = 16
    · rw [if_pos hl]
      rcases hl with rfl | rfl | rfl | rfl <;>
      · by_cases hm1 : m = 211
        · subst hm1
          simp [h211, Prod.ext_iff]
        · by_cases hm2 : m = 321
          · subst hm2
            simp [h321, Prod.ext_iff]
          · by_cases hmp : m ∈ prompt_ids species ecrit411
            · simp [hm1, hm2, hmp, Prod.ext_iff]
            · simp [hm1, hm2, hmp, Prod.ext_iff]
    · rw [if_neg hl]
      simp only [not_or] at hl
      simp [hl.1, hl.2.1, hl.2.2.1, hl.2.2.2, Prod.ext_iff]
  · constructor
    · intro hm
      obtain ⟨p, hpf, rfl⟩ := List.mem_map.mp hm
      obtain ⟨hps2, hpred⟩ := List.mem_filter.mp hpf
      simp only [Bool.and_eq_true, Bool.not_eq_true', Bool.or_eq_false_iff,
        decide_eq_false_iff_not, decide_eq_true_eq, not_lt] at hpred
      obtain ⟨⟨⟨hlep2, hali2⟩, hge⟩, he2⟩ := hpred
      refine ⟨p, hps2, rfl, hlep2, hali2, ?_, he2⟩
      have := h0 p hps2
      omega
    · rintro ⟨p, hps2, rfl, hlep, hali, hpos, he⟩
      refine List.mem_map.mpr ⟨p, List.mem_filter.mpr ⟨hps2, ?_⟩, rfl⟩
      simp only [Bool.and_eq_true, Bool.not_eq_true', Bool.or_eq_false_iff,
        decide_eq_false_iff_not, decide_eq_true_eq, not_lt]
      exact ⟨⟨⟨hlep, hali⟩, by omega⟩, he⟩

/-- Witness for C9: in a catalog with the charmed hadron 411, a pion and
a muon, `(411, 14)` is routed to the prompt alias `7014`. -/
theorem init_alias_tables_spec_witness :
    init_alias_table
      [⟨411, 100, false, false, false, some 0⟩,
       ⟨211, 5, false, false, false, some 1⟩,
       ⟨13, 1, false, true, false, some 2⟩] 100 (411, 14) = some 7014 := by
  have h := (init_alias_tables_spec
    [⟨411, 100, false, false, false, some 0⟩,
     ⟨211, 5, false, false, false, some 1⟩,
     ⟨13, 1, false, true, false, some 2⟩] 100 411 14
    (by decide) (by decide) (by decide)).1
  rw [h]
  norm_num [prompt_ids]
end MCEq
